import Mathlib

set_option maxHeartbeats 1000000
set_option maxRecDepth 100000

namespace BPIO2

/-!
Verification of the BPIO2 protocol example (`src/rust/bpio2/examples/i2c.rs`).

The file embeds three layers:
* the schema data model and response decoding (the generated `bpio2`
  flatbuffers code is not under `src/`, so the decoder is modelled from the
  spec, sections 3 and 4.2);
* the COBS byte framer (the `cobs` crate is not under `src/`, so the encoder
  and the incremental decoder are modelled from the spec, section 4.1);
* the transaction classification and receive loop, translated directly from
  the two `match` expressions and the two read loops of `i2c.rs`.
-/

/-! ### Data model (schema types) -/

/-- Modelled from the spec: the discriminant of the response union of the
generated `bpio2` schema code, which is not under `src/`. The spec (section 3)
lists the three response kinds plus the flatbuffers `NONE` default. -/
inductive ResponsePacketContents where
  | NONE
  | ErrorResponse
  | ConfigurationResponse
  | DataResponse
deriving DecidableEq

/-- Modelled from the spec: the `ErrorResponse` table of the missing schema
code; it carries an optional device-supplied error description. -/
structure ErrorResponseT where
  error : Option String
deriving DecidableEq

/-- Modelled from the spec: the `ConfigurationResponse` table of the missing
schema code; absence of the error string is the sole success signal. -/
structure ConfigurationResponseT where
  error : Option String
deriving DecidableEq

/-- Modelled from the spec: the `DataResponse` table of the missing schema
code; an optional error string and, on success, the bytes actually read. -/
structure DataResponseT where
  error : Option String
  data_read : Option (List Nat)
deriving DecidableEq

/-- Modelled from the spec: the value stored in the response union slot. -/
inductive ResponseUnion where
  | err (e : ErrorResponseT)
  | cfg (c : ConfigurationResponseT)
  | dat (d : DataResponseT)
deriving DecidableEq

/-- Modelled from the spec: the decoded `ResponsePacket` root table of the
missing schema code: version tag, union discriminant and union slot. -/
structure ResponsePacket where
  version_major : Nat
  version_minor : Nat
  contents_type : ResponsePacketContents
  contents : Option ResponseUnion
deriving DecidableEq

/-- Modelled from the spec: the generated accessor
`ResponsePacket::contents_as_error_response`, which returns `Some` exactly
when the discriminant selects `ErrorResponse` and the union slot holds one. -/
def ResponsePacket.contents_as_error_response (p : ResponsePacket) :
    Option ErrorResponseT :=
  if p.contents_type = .ErrorResponse then
    match p.contents with
    | some (.err e) => some e
    | _ => none
  else none

/-- Modelled from the spec: the generated accessor
`ResponsePacket::contents_as_configuration_response`. -/
def ResponsePacket.contents_as_configuration_response (p : ResponsePacket) :
    Option ConfigurationResponseT :=
  if p.contents_type = .ConfigurationResponse then
    match p.contents with
    | some (.cfg c) => some c
    | _ => none
  else none

/-- Modelled from the spec: the generated accessor
`ResponsePacket::contents_as_data_response`. -/
def ResponsePacket.contents_as_data_response (p : ResponsePacket) :
    Option DataResponseT :=
  if p.contents_type = .DataResponse then
    match p.contents with
    | some (.dat d) => some d
    | _ => none
  else none

/-- Well-formedness of a decoded packet: the discriminant and the populated
union variant agree (spec, section 3: "Exactly one union variant is populated
per request/response; discriminant and payload must agree"). -/
def WfPacket (p : ResponsePacket) : Prop :=
  match p.contents_type, p.contents with
  | .NONE, none => True
  | .ErrorResponse, some (.err _) => True
  | .ConfigurationResponse, some (.cfg _) => True
  | .DataResponse, some (.dat _) => True
  | _, _ => False

/-! ### Message codec: decoding a response buffer

The real decoder is the flatbuffers verifier behind
`bpio2::root_as_response_packet`; that generated code is not under `src/`, so
the byte layout here is modelled from the spec (section 4.2): a version tag,
the union discriminant, a presence flag for the union slot, and the
kind-specific optional fields. -/

/-- Typed decode errors of the response parser (spec, section 4.2). -/
inductive DecodeError where
  | truncated
  | unrecognizedDiscriminant (v : Nat)
  | structural (msg : String)
deriving DecidableEq

/-- Reads one byte from the buffer; fails with `truncated` on empty input. -/
def readByte : List Nat → Except DecodeError (Nat × List Nat)
  | [] => .error .truncated
  | b :: rest => .ok (b, rest)

/-- Reads a fixed number of bytes; fails with `truncated` when fewer remain. -/
def readChunk (n : Nat) (l : List Nat) :
    Except DecodeError (List Nat × List Nat) :=
  if n ≤ l.length then .ok (l.take n, l.drop n) else .error .truncated

/-- Sequencing of two parsing steps: run the first, feed its value and the
remaining bytes to the second. -/
def pstep {α β : Type} (P : List Nat → Except DecodeError (α × List Nat))
    (Q : α → List Nat → Except DecodeError (β × List Nat))
    (l : List Nat) : Except DecodeError (β × List Nat) :=
  match P l with
  | .error e => .error e
  | .ok (a, r) => Q a r

/-- Modelled from the spec: an optional byte-sequence field — a presence flag,
then a length byte and that many bytes when present. -/
def readOptBytes : List Nat → Except DecodeError (Option (List Nat) × List Nat) :=
  pstep readByte fun flag =>
    if flag = 0 then fun r => .ok (none, r)
    else if flag = 1 then
      pstep readByte fun n =>
        pstep (readChunk n) fun bs =>
          fun r => .ok (some bs, r)
    else fun _ => .error (.structural "invalid presence flag")

/-- Interprets raw bytes as a string value. -/
def bytesToString (bs : List Nat) : String :=
  String.mk (bs.map Char.ofNat)

/-- Modelled from the spec: an optional string field of a response table. -/
def readOptString : List Nat → Except DecodeError (Option String × List Nat) :=
  pstep readOptBytes fun obs =>
    fun r => .ok (Option.map bytesToString obs, r)

/-- Modelled from the spec: the response parser behind
`bpio2::root_as_response_packet`, returning the packet together with the
unconsumed bytes. It reads the version tag and the discriminant, rejects an
unrecognized discriminant, requires the union slot to be present exactly when
the discriminant selects a variant, and parses the kind-specific fields. -/
def decodeAux : List Nat → Except DecodeError (ResponsePacket × List Nat) :=
  pstep readByte fun vmaj =>
    pstep readByte fun vmin =>
      pstep readByte fun disc =>
        if disc = 0 then
          pstep readByte fun flag =>
            if flag = 0 then
              fun r => .ok (⟨vmaj, vmin, .NONE, none⟩, r)
            else fun _ => .error (.structural "union slot present without discriminant")
        else if disc = 1 then
          pstep readByte fun flag =>
            if flag = 1 then
              pstep readOptString fun e =>
                fun r => .ok (⟨vmaj, vmin, .ErrorResponse, some (.err ⟨e⟩)⟩, r)
            else if flag = 0 then fun _ => .error (.structural "union slot absent")
            else fun _ => .error (.structural "invalid presence flag")
        else if disc = 2 then
          pstep readByte fun flag =>
            if flag = 1 then
              pstep readOptString fun e =>
                fun r => .ok (⟨vmaj, vmin, .ConfigurationResponse, some (.cfg ⟨e⟩)⟩, r)
            else if flag = 0 then fun _ => .error (.structural "union slot absent")
            else fun _ => .error (.structural "invalid presence flag")
        else if disc = 3 then
          pstep readByte fun flag =>
            if flag = 1 then
              pstep readOptString fun e =>
                pstep readOptBytes fun bs =>
                  fun r => .ok (⟨vmaj, vmin, .DataResponse, some (.dat ⟨e, bs⟩)⟩, r)
            else if flag = 0 then fun _ => .error (.structural "union slot absent")
            else fun _ => .error (.structural "invalid presence flag")
        else fun _ => .error (.unrecognizedDiscriminant disc)

/-- Modelled from the spec: `bpio2::root_as_response_packet` — parse a raw
buffer into a typed `ResponsePacket` or a typed `DecodeError`. -/
def root_as_response_packet (l : List Nat) : Except DecodeError ResponsePacket :=
  match decodeAux l with
  | .ok (p, _) => .ok p
  | .error e => .error e

/-! ### Byte framer (COBS)

The `cobs` crate used by the example is not under `src/`; the encoder and the
incremental decoder are modelled from the spec (section 4.1): a zero-sentinel
consistent-overhead byte-stuffing transform with a stateful, fixed-capacity
incremental decoder. -/

/-- Modelled from the spec: the block-building loop of `cobs::encode_vec`.
`block` holds the (at most 254) non-sentinel bytes accumulated for the current
block; each emitted block is a code byte (block length + 1, or 255 for a full
block) followed by the block's data bytes, so the sentinel never occurs in the
output. -/
def cobsEncodeGo : List Nat → List Nat → List Nat
  | block, [] => (block.length + 1) :: block
  | block, b :: rest =>
    if b = 0 then ((block.length + 1) :: block) ++ cobsEncodeGo [] rest
    else if block.length = 253 then
      ((255 : Nat) :: (block ++ [b])) ++ cobsEncodeGo [] rest
    else cobsEncodeGo (block ++ [b]) rest

/-- Modelled from the spec: `cobs::encode_vec` — COBS-encode a payload; the
caller appends the single `0x00` terminator afterwards. -/
def cobsEncode (input : List Nat) : List Nat :=
  cobsEncodeGo [] input

/-- Modelled from the spec: the state of `cobs::CobsDecoder` — the bytes
written to the destination buffer so far, the number of data bytes still
expected in the current block, and whether an implied sentinel byte must be
written before the next block's data. -/
structure DecSt where
  dest : List Nat
  remaining : Nat
  pending : Bool
deriving DecidableEq

/-- The state of a freshly constructed decoder. -/
def initSt : DecSt := ⟨[], 0, false⟩

/-- Result of feeding a single byte to the incremental decoder. -/
inductive FeedResult where
  | more (st : DecSt)
  | complete (dest : List Nat)
  | fail
deriving DecidableEq

/-- Modelled from the spec: one step of `cobs::CobsDecoder` on a single byte.
`cap` is the fixed capacity of the destination buffer. At a block boundary a
sentinel byte completes the frame, and any other byte starts a new block
(first flushing the implied sentinel of the previous block); inside a block a
sentinel byte is a malformed stuffing sequence, and a write past the capacity
is an overflow failure. -/
def feed (cap : Nat) (st : DecSt) (b : Nat) : FeedResult :=
  match st.remaining with
  | 0 =>
    if b = 0 then .complete st.dest
    else if st.pending then
      if cap ≤ st.dest.length then .fail
      else .more ⟨st.dest ++ [0], b - 1, decide (b < 255)⟩
    else .more ⟨st.dest, b - 1, decide (b < 255)⟩
  | n + 1 =>
    if b = 0 then .fail
    else if cap ≤ st.dest.length then .fail
    else .more ⟨st.dest ++ [b], n, st.pending⟩

/-- Result of `CobsDecoder::push`: still accumulating, a completed frame
(the destination buffer sliced to the parsed length), or a decode failure. -/
inductive PushResult where
  | ongoing (st : DecSt)
  | done (dest : List Nat)
  | err
deriving DecidableEq

/-- Modelled from the spec: `cobs::CobsDecoder::push` — consume a chunk byte
by byte, stopping at the first completed frame or failure; bytes of the chunk
after a completed frame are not consumed. -/
def push (cap : Nat) : DecSt → List Nat → PushResult
  | st, [] => .ongoing st
  | st, b :: rest =>
    match feed cap st b with
    | .more st' => push cap st' rest
    | .complete d => .done d
    | .fail => .err

/-- Whether a push left the decoder still accumulating. -/
def PushResult.isOngoing : PushResult → Bool
  | .ongoing _ => true
  | _ => false

/-- Outcome of the receive loop of `i2c.rs` (lines 96-108 and 189-201): the
decoded frame on completion, a panic on a COBS decode failure, or running out
of transport reads. -/
inductive RecvResult where
  | decoded (bytes : List Nat)
  | cobsFailure
  | exhausted
deriving DecidableEq

/-- The receive loop of `i2c.rs`: feed each transport read to the incremental
decoder and break with the sliced destination buffer as soon as a push reports
a completed frame. The chunks remaining after the breaking one are never
pushed. -/
def recvLoop (cap : Nat) : DecSt → List (List Nat) → RecvResult
  | _, [] => .exhausted
  | st, c :: cs =>
    match push cap st c with
    | .ongoing st' => recvLoop cap st' cs
    | .done d => .decoded d
    | .err => .cobsFailure

/-- The two receive phases of `i2c.rs` as one session: each transaction
constructs a fresh decoder over a fresh destination buffer (lines 94-95 and
187-188), so both loops start from `initSt`. -/
def sessionRecv (cap : Nat) (chunks₁ chunks₂ : List (List Nat)) :
    RecvResult × RecvResult :=
  (recvLoop cap initSt chunks₁, recvLoop cap initSt chunks₂)

/-- Splits a list into consecutive chunks of `n` elements (the last chunk may
be shorter); used to model the arbitrary chunking of transport reads. -/
def chunksOf (n : Nat) (l : List α) : List (List α) :=
  if _h : l.length = 0 ∨ n = 0 then []
  else l.take n :: chunksOf n (l.drop n)
termination_by l.length
decreasing_by simp only [List.length_drop]; omega

/-! ### Transaction classification (translated from `i2c.rs`) -/

/-- Escapes one character the way Rust's `Debug` formatting of `str` does for
the characters the example can produce. -/
def rustEscapeChar (c : Char) : String :=
  if c = '"' then "\\\""
  else if c = '\\' then "\\\\"
  else if c = '\n' then "\\n"
  else if c = '\t' then "\\t"
  else if c = '\r' then "\\r"
  else String.singleton c

/-- Rust `Debug` formatting of a string slice, as interpolated by the
example's `panic!("...: {:?}", s)` calls. -/
def rustDebugStr (s : String) : String :=
  "\"" ++ String.join (s.data.map rustEscapeChar) ++ "\""

/-- Rust `Debug` formatting of an `Option` of a string slice. -/
def rustDebugOptStr : Option String → String
  | none => "None"
  | some s => "Some(" ++ rustDebugStr s ++ ")"

/-- Rust `Debug` formatting of the generated discriminant enum. -/
def ResponsePacketContents.debugName : ResponsePacketContents → String
  | .NONE => "NONE"
  | .ErrorResponse => "ErrorResponse"
  | .ConfigurationResponse => "ConfigurationResponse"
  | .DataResponse => "DataResponse"

/-- Message of a Rust `Option::unwrap` on a `None` value. -/
def unwrapNoneMsg : String := "called Option::unwrap() on a None value"

/-- Outcome of one transaction of the example: the configuration exchange
succeeds with no payload, the data exchange succeeds with the bytes read, and
every failure path is a `panic!` carrying its message. -/
inductive TxOutcome where
  | okUnit
  | okData (bytes : List Nat)
  | panicked (msg : String)
deriving DecidableEq

/-- Classification of the response to the configuration request, translated
from the `match response.contents_type()` at `i2c.rs` lines 115-134. -/
def classifyConfigurationResponse (response : ResponsePacket) : TxOutcome :=
  match response.contents_type with
  | .ErrorResponse =>
    match response.contents_as_error_response with
    | none => .panicked unwrapNoneMsg
    | some contents =>
      .panicked ("Received error response from BusPirate: "
        ++ rustDebugOptStr contents.error)
  | .ConfigurationResponse =>
    match response.contents_as_configuration_response with
    | none => .panicked unwrapNoneMsg
    | some contents =>
      match contents.error with
      | some error_message =>
        .panicked ("Configuration response error: " ++ rustDebugStr error_message)
      | none => .okUnit
  | other =>
    .panicked ("Unexpected response contents type " ++ other.debugName)

/-- Classification of the response to the data request, translated from the
`match response.contents_type()` at `i2c.rs` lines 205-226. The error branch
of the `DataResponse` arm panics with the literal message of source line 218,
which reads "Configuration response error". -/
def classifyDataResponse (response : ResponsePacket) : TxOutcome :=
  match response.contents_type with
  | .ErrorResponse =>
    match response.contents_as_error_response with
    | none => .panicked unwrapNoneMsg
    | some contents =>
      .panicked ("Received error response from BusPirate: "
        ++ rustDebugOptStr contents.error)
  | .DataResponse =>
    match response.contents_as_data_response with
    | none => .panicked unwrapNoneMsg
    | some contents =>
      match contents.error with
      | some error_message =>
        .panicked ("Configuration response error: " ++ rustDebugStr error_message)
      | none =>
        match contents.data_read with
        | none => .panicked unwrapNoneMsg
        | some data_read => .okData data_read
  | other =>
    .panicked ("Unexpected response contents type " ++ other.debugName)

/-- A decoded packet whose discriminant is `ErrorResponse`. -/
def mkErrorPacket (e : Option String) : ResponsePacket :=
  ⟨2, 0, .ErrorResponse, some (.err ⟨e⟩)⟩

/-- A decoded packet whose discriminant is `ConfigurationResponse`. -/
def mkConfigurationPacket (e : Option String) : ResponsePacket :=
  ⟨2, 0, .ConfigurationResponse, some (.cfg ⟨e⟩)⟩

/-- A decoded packet whose discriminant is `DataResponse`. -/
def mkDataPacket (e : Option String) (dr : Option (List Nat)) : ResponsePacket :=
  ⟨2, 0, .DataResponse, some (.dat ⟨e, dr⟩)⟩

/-- A decoded packet with the `NONE` discriminant and an empty union slot. -/
def mkNonePacket : ResponsePacket :=
  ⟨2, 0, .NONE, none⟩

/-! ### Framer lemmas -/

/-- Pushing a concatenation of two chunks behaves like pushing them in turn,
with the push stopping early at a completed frame or a failure. -/
theorem push_append (cap : Nat) (a : List Nat) : ∀ (st : DecSt) (b : List Nat),
    push cap st (a ++ b) =
      match push cap st a with
      | .ongoing st' => push cap st' b
      | .done d => .done d
      | .err => .err := by
  induction a with
  | nil => intro st b; simp [push]
  | cons x xs ih =>
    intro st b
    simp only [List.cons_append, push]
    cases feed cap st x with
    | more st' => exact ih st' b
    | complete d => rfl
    | fail => rfl

/-- If pushing all the bytes of the chunk list at once completes a frame, the
chunked receive loop decodes that same frame. -/
theorem recvLoop_of_push_done (cap : Nat) (chunks : List (List Nat)) :
    ∀ (st : DecSt) (d : List Nat), push cap st chunks.flatten = .done d →
      recvLoop cap st chunks = .decoded d := by
  induction chunks with
  | nil => intro st d h; simp [push] at h
  | cons c cs ih =>
    intro st d h
    rw [List.flatten_cons, push_append] at h
    simp only [recvLoop]
    cases hc : push cap st c with
    | ongoing st' => rw [hc] at h; exact ih st' d h
    | done d' => rw [hc] at h; cases h; rfl
    | err => rw [hc] at h; cases h

/-- Concatenating the chunks of `chunksOf` gives back the original list. -/
theorem chunksOf_join_le {α : Type} (n : Nat) (hn : 0 < n) :
    ∀ (L : Nat) (l : List α), l.length ≤ L → (chunksOf n l).flatten = l := by
  intro L
  induction L with
  | zero =>
    intro l hl
    have : l = [] := List.eq_nil_of_length_eq_zero (by omega)
    subst this
    rw [chunksOf]
    simp
  | succ L ih =>
    intro l hl
    rw [chunksOf]
    split
    · rename_i h
      have : l = [] := List.eq_nil_of_length_eq_zero (by omega)
      simp [this]
    · rename_i h
      rw [List.flatten_cons, ih (l.drop n) (by simp only [List.length_drop]; omega)]
      exact List.take_append_drop n l

/-- Concatenating the chunks of `chunksOf` gives back the original list. -/
theorem chunksOf_join {α : Type} (n : Nat) (hn : 0 < n) (l : List α) :
    (chunksOf n l).flatten = l :=
  chunksOf_join_le n hn l.length l (Nat.le_refl _)

/-- A single byte completes a frame only when it is the sentinel. -/
theorem feed_complete_zero (cap : Nat) (st : DecSt) (b : Nat) (d : List Nat)
    (h : feed cap st b = .complete d) : b = 0 := by
  by_contra hb
  cases hrem : st.remaining <;> simp only [feed, hrem, if_neg hb] at h
  · split at h
    · split at h <;> cases h
    · cases h
  · split at h <;> cases h

/-- A push can only complete a frame when the pushed bytes contain the
sentinel. -/
theorem push_done_mem_zero (cap : Nat) (l : List Nat) :
    ∀ (st : DecSt) (d : List Nat), push cap st l = .done d → 0 ∈ l := by
  induction l with
  | nil => intro st d h; simp [push] at h
  | cons b rest ih =>
    intro st d h
    simp only [push] at h
    cases hf : feed cap st b with
    | more st' =>
      rw [hf] at h
      exact List.mem_cons_of_mem _ (ih st' d h)
    | complete dd =>
      have hb := feed_complete_zero cap st b dd hf
      simp [hb]
    | fail => rw [hf] at h; cases h

/-- The encoder loop never emits the sentinel byte, provided the bytes already
accumulated in the current block are non-sentinel. -/
theorem encodeGo_ne_zero (rest : List Nat) :
    ∀ block : List Nat, (∀ x ∈ block, x ≠ 0) →
      ∀ y ∈ cobsEncodeGo block rest, y ≠ 0 := by
  induction rest with
  | nil =>
    intro block hb y hy
    simp only [cobsEncodeGo, List.mem_cons] at hy
    rcases hy with hy | hy
    · omega
    · exact hb y hy
  | cons b r ih =>
    intro block hb y hy
    simp only [cobsEncodeGo] at hy
    by_cases hb0 : b = 0
    · rw [if_pos hb0] at hy
      rcases List.mem_append.mp hy with hy | hy
      · rcases List.mem_cons.mp hy with hy | hy
        · omega
        · exact hb y hy
      · exact ih [] (by simp) y hy
    · by_cases hfull : block.length = 253
      · rw [if_neg hb0, if_pos hfull] at hy
        rcases List.mem_append.mp hy with hy | hy
        · rcases List.mem_cons.mp hy with hy | hy
          · omega
          · rcases List.mem_append.mp hy with hy | hy
            · exact hb y hy
            · simp only [List.mem_singleton] at hy; subst hy; exact hb0
        · exact ih [] (by simp) y hy
      · rw [if_neg hb0, if_neg hfull] at hy
        refine ih (block ++ [b]) ?_ y hy
        intro x hx
        rcases List.mem_append.mp hx with hx | hx
        · exact hb x hx
        · simp only [List.mem_singleton] at hx; subst hx; exact hb0

/-- Unfolding of the encoder loop on an exhausted input. -/
theorem cobsEncodeGo_nil (block : List Nat) :
    cobsEncodeGo block [] = (block.length + 1) :: block := rfl

/-- Unfolding of the encoder loop on a sentinel byte. -/
theorem cobsEncodeGo_zero (block : List Nat) (r : List Nat) :
    cobsEncodeGo block (0 :: r) =
      ((block.length + 1) :: block) ++ cobsEncodeGo [] r := by
  simp [cobsEncodeGo]

/-- Unfolding of the encoder loop when a non-sentinel byte fills the block. -/
theorem cobsEncodeGo_full (block : List Nat) (b : Nat) (r : List Nat)
    (hb : b ≠ 0) (hfull : block.length = 253) :
    cobsEncodeGo block (b :: r) =
      ((255 : Nat) :: (block ++ [b])) ++ cobsEncodeGo [] r := by
  simp [cobsEncodeGo, hb, hfull]

/-- Unfolding of the encoder loop on a non-sentinel byte with room left. -/
theorem cobsEncodeGo_snoc (block : List Nat) (b : Nat) (r : List Nat)
    (hb : b ≠ 0) (hfull : block.length ≠ 253) :
    cobsEncodeGo block (b :: r) = cobsEncodeGo (block ++ [b]) r := by
  simp [cobsEncodeGo, hb, hfull]

/-- Feeding a sentinel byte at a block boundary completes the frame. -/
theorem feed_sentinel (cap : Nat) (d : List Nat) (p : Bool) :
    feed cap ⟨d, 0, p⟩ 0 = .complete d := by
  simp [feed]

/-- Feeding a code byte with no implied sentinel outstanding. -/
theorem feed_code_nopending (cap : Nat) (d : List Nat) (b : Nat) (hb : b ≠ 0) :
    feed cap ⟨d, 0, false⟩ b = .more ⟨d, b - 1, decide (b < 255)⟩ := by
  simp [feed, hb]

/-- Feeding a code byte with an implied sentinel outstanding and room for it. -/
theorem feed_code_pending (cap : Nat) (d : List Nat) (b : Nat) (hb : b ≠ 0)
    (hd : d.length < cap) :
    feed cap ⟨d, 0, true⟩ b = .more ⟨d ++ [0], b - 1, decide (b < 255)⟩ := by
  simp [feed, hb, Nat.not_le.mpr hd]

/-- Feeding a code byte whose implied-sentinel write would overflow. -/
theorem feed_code_pending_over (cap : Nat) (d : List Nat) (b : Nat)
    (hb : b ≠ 0) (hd : cap ≤ d.length) :
    feed cap ⟨d, 0, true⟩ b = .fail := by
  simp [feed, hb, hd]

/-- Feeding a data byte of the current block with room for it. -/
theorem feed_data (cap : Nat) (d : List Nat) (n : Nat) (p : Bool) (b : Nat)
    (hb : b ≠ 0) (hd : d.length < cap) :
    feed cap ⟨d, n + 1, p⟩ b = .more ⟨d ++ [b], n, p⟩ := by
  simp [feed, hb, Nat.not_le.mpr hd]

/-- Feeding a data byte whose write would overflow the destination. -/
theorem feed_data_over (cap : Nat) (d : List Nat) (n : Nat) (p : Bool) (b : Nat)
    (hb : b ≠ 0) (hd : cap ≤ d.length) :
    feed cap ⟨d, n + 1, p⟩ b = .fail := by
  simp [feed, hb, hd]

/-- Appending a non-sentinel byte preserves block non-sentinel-ness. -/
theorem block_snoc_ne_zero {block : List Nat} {b : Nat}
    (hb : ∀ x ∈ block, x ≠ 0) (hb0 : b ≠ 0) : ∀ x ∈ block ++ [b], x ≠ 0 := by
  intro x hx
  rcases List.mem_append.mp hx with hx | hx
  · exact hb x hx
  · simp only [List.mem_singleton] at hx; subst hx; exact hb0

/-- Length of the implied-sentinel contribution of the pending flag. -/
theorem cond_pend_length (p : Bool) : (cond p [(0 : Nat)] []).length = cond p 1 0 := by
  cases p <;> rfl

/-- Pushing the data bytes of the current block writes them through to the
destination buffer when they fit. -/
theorem push_data (cap : Nat) (data : List Nat) :
    ∀ (d : List Nat) (p : Bool) (more : List Nat),
      (∀ x ∈ data, x ≠ 0) → d.length + data.length ≤ cap →
      push cap ⟨d, data.length, p⟩ (data ++ more) =
        push cap ⟨d ++ data, 0, p⟩ more := by
  induction data with
  | nil => intro d p more _ _; simp
  | cons b bs ih =>
    intro d p more hnz hcap
    simp only [List.length_cons] at hcap
    have hb : b ≠ 0 := hnz b (List.mem_cons_self b bs)
    have hd : d.length < cap := by omega
    simp only [List.cons_append, List.length_cons, push, List.append_eq,
      feed_data cap d bs.length p b hb hd]
    rw [ih (d ++ [b]) p more (fun x hx => hnz x (List.mem_cons_of_mem _ hx))
      (by simp only [List.length_append, List.length_singleton]; omega)]
    rw [List.append_assoc, List.singleton_append]

/-- Pushing the data bytes of the current block fails with an overflow when
they do not fit in the destination buffer. -/
theorem push_data_overflow (cap : Nat) (data : List Nat) :
    ∀ (d : List Nat) (p : Bool) (more : List Nat),
      (∀ x ∈ data, x ≠ 0) → d.length ≤ cap → cap < d.length + data.length →
      push cap ⟨d, data.length, p⟩ (data ++ more) = .err := by
  induction data with
  | nil =>
    intro d p more _ hle hover
    rw [List.length_nil, Nat.add_zero] at hover
    exact absurd hover (Nat.not_lt.mpr hle)
  | cons b bs ih =>
    intro d p more hnz hle hover
    simp only [List.length_cons] at hover
    have hb : b ≠ 0 := hnz b (List.mem_cons_self b bs)
    by_cases hd : cap ≤ d.length
    · simp only [List.cons_append, List.length_cons, push, List.append_eq,
        feed_data_over cap d bs.length p b hb hd]
    · have hd' : d.length < cap := by omega
      simp only [List.cons_append, List.length_cons, push, List.append_eq,
        feed_data cap d bs.length p b hb hd']
      refine ih (d ++ [b]) p more (fun x hx => hnz x (List.mem_cons_of_mem _ hx))
        ?_ ?_
      · simp only [List.length_append, List.length_singleton]; omega
      · simp only [List.length_append, List.length_singleton]; omega

/-- Pushing one encoded block (its code byte followed by its data bytes)
through the decoder appends the implied sentinel of the previous block and
the block data to the destination. -/
theorem push_block (cap : Nat) (code : Nat) (data d tail : List Nat) (p : Bool)
    (hc : code ≠ 0) (hlen : data.length = code - 1) (hnz : ∀ x ∈ data, x ≠ 0)
    (hcap : d.length + (cond p 1 0) + data.length ≤ cap) :
    push cap ⟨d, 0, p⟩ ((code :: data) ++ tail) =
      push cap ⟨d ++ (cond p [0] []) ++ data, 0, decide (code < 255)⟩ tail := by
  cases p with
  | false =>
    simp only [cond] at hcap
    simp only [List.cons_append, push, List.append_eq,
      feed_code_nopending cap d code hc]
    rw [← hlen]
    rw [push_data cap data d (decide (code < 255)) tail hnz (by omega)]
    simp [cond]
  | true =>
    simp only [cond] at hcap
    have hd : d.length < cap := by omega
    simp only [List.cons_append, push, List.append_eq,
      feed_code_pending cap d code hc hd]
    rw [← hlen]
    rw [push_data cap data (d ++ [0]) (decide (code < 255)) tail hnz
      (by simp only [List.length_append, List.length_singleton]; omega)]
    simp [cond]

/-- Pushing one encoded block fails with an overflow when the implied
sentinel plus the block data do not fit in the destination buffer. -/
theorem push_block_overflow (cap : Nat) (code : Nat) (data d tail : List Nat)
    (p : Bool) (hc : code ≠ 0) (hlen : data.length = code - 1)
    (hnz : ∀ x ∈ data, x ≠ 0) (hle : d.length ≤ cap)
    (hover : cap < d.length + (cond p 1 0) + data.length) :
    push cap ⟨d, 0, p⟩ ((code :: data) ++ tail) = .err := by
  cases p with
  | false =>
    simp only [cond] at hover
    simp only [List.cons_append, push, List.append_eq,
      feed_code_nopending cap d code hc]
    rw [← hlen]
    exact push_data_overflow cap data d (decide (code < 255)) tail hnz hle
      (by omega)
  | true =>
    simp only [cond] at hover
    by_cases hd : cap ≤ d.length
    · simp only [List.cons_append, push, List.append_eq,
        feed_code_pending_over cap d code hc hd]
    · have hd' : d.length < cap := by omega
      simp only [List.cons_append, push, List.append_eq,
        feed_code_pending cap d code hc hd']
      rw [← hlen]
      refine push_data_overflow cap data (d ++ [0]) (decide (code < 255)) tail
        hnz ?_ ?_
      · simp only [List.length_append, List.length_singleton]; omega
      · simp only [List.length_append, List.length_singleton]; omega

/-- Decoding an encoded stream: pushing the encoding of the remaining input
(relative to an accumulated block) followed by the terminator completes with
the destination extended by the pending sentinel, the block and the input. -/
theorem push_encodeGo (cap : Nat) (rest : List Nat) :
    ∀ (block d : List Nat) (p : Bool),
      (∀ x ∈ block, x ≠ 0) → block.length ≤ 253 →
      d.length + (cond p 1 0) + block.length + rest.length ≤ cap →
      push cap ⟨d, 0, p⟩ (cobsEncodeGo block rest ++ [0]) =
        .done (d ++ (cond p [0] []) ++ block ++ rest) := by
  induction rest with
  | nil =>
    intro block d p hnz hble hcap
    simp only [List.length_nil, Nat.add_zero] at hcap
    rw [cobsEncodeGo_nil]
    rw [push_block cap (block.length + 1) block d [0] p (by omega) (by omega)
      hnz hcap]
    simp only [push, feed_sentinel]
    rw [List.append_nil]
  | cons b r ih =>
    intro block d p hnz hble hcap
    simp only [List.length_cons] at hcap
    by_cases hb0 : b = 0
    · subst hb0
      rw [cobsEncodeGo_zero, List.append_assoc]
      rw [push_block cap (block.length + 1) block d _ p (by omega) (by omega)
        hnz (by omega)]
      rw [decide_eq_true (show block.length + 1 < 255 by omega)]
      rw [ih [] (d ++ cond p [0] [] ++ block) true (by simp) (by simp)
        (by simp only [List.length_append, cond_pend_length, List.length_nil,
            Bool.cond_true, Bool.cond_false]
            omega)]
      simp [List.append_assoc]
    · by_cases hfull : block.length = 253
      · rw [cobsEncodeGo_full block b r hb0 hfull, List.append_assoc]
        rw [push_block cap 255 (block ++ [b]) d _ p (by omega)
          (by simp only [List.length_append, List.length_singleton]; omega)
          (block_snoc_ne_zero hnz hb0)
          (by simp only [List.length_append, List.length_singleton]; omega)]
        rw [show decide ((255 : Nat) < 255) = false from rfl]
        rw [ih [] (d ++ cond p [0] [] ++ (block ++ [b])) false (by simp)
          (by simp)
          (by simp only [List.length_append, cond_pend_length, List.length_nil,
                List.length_singleton, Bool.cond_true, Bool.cond_false]
              omega)]
        simp [List.append_assoc]
      · rw [cobsEncodeGo_snoc block b r hb0 hfull]
        rw [ih (block ++ [b]) d p (block_snoc_ne_zero hnz hb0)
          (by simp only [List.length_append, List.length_singleton]; omega)
          (by simp only [List.length_append, List.length_singleton]; omega)]
        simp [List.append_assoc]

/-- Overflow of an encoded stream: when the decoded content cannot fit in the
destination buffer, pushing the encoding fails rather than completing. -/
theorem push_encodeGo_overflow (cap : Nat) (rest : List Nat) :
    ∀ (block d : List Nat) (p : Bool),
      (∀ x ∈ block, x ≠ 0) → block.length ≤ 253 → d.length ≤ cap →
      cap < d.length + (cond p 1 0) + block.length + rest.length →
      push cap ⟨d, 0, p⟩ (cobsEncodeGo block rest ++ [0]) = .err := by
  induction rest with
  | nil =>
    intro block d p hnz hble hdle hover
    simp only [List.length_nil, Nat.add_zero] at hover
    rw [cobsEncodeGo_nil]
    exact push_block_overflow cap (block.length + 1) block d [0] p (by omega)
      (by omega) hnz hdle hover
  | cons b r ih =>
    intro block d p hnz hble hdle hover
    simp only [List.length_cons] at hover
    by_cases hb0 : b = 0
    · subst hb0
      rw [cobsEncodeGo_zero, List.append_assoc]
      by_cases hov : cap < d.length + cond p 1 0 + block.length
      · exact push_block_overflow cap (block.length + 1) block d _ p (by omega)
          (by omega) hnz hdle hov
      · rw [push_block cap (block.length + 1) block d _ p (by omega) (by omega)
          hnz (by omega)]
        rw [decide_eq_true (show block.length + 1 < 255 by omega)]
        refine ih [] (d ++ cond p [0] [] ++ block) true (by simp) (by simp)
          ?_ ?_
        · simp only [List.length_append, cond_pend_length, List.length_nil,
            Bool.cond_true, Bool.cond_false]
          omega
        · simp only [List.length_append, cond_pend_length, List.length_nil,
            Bool.cond_true, Bool.cond_false]
          omega
    · by_cases hfull : block.length = 253
      · rw [cobsEncodeGo_full block b r hb0 hfull, List.append_assoc]
        by_cases hov : cap < d.length + cond p 1 0 + (block.length + 1)
        · exact push_block_overflow cap 255 (block ++ [b]) d _ p (by omega)
            (by simp only [List.length_append, List.length_singleton]; omega)
            (block_snoc_ne_zero hnz hb0) hdle
            (by simp only [List.length_append, List.length_singleton]; omega)
        · rw [push_block cap 255 (block ++ [b]) d _ p (by omega)
            (by simp only [List.length_append, List.length_singleton]; omega)
            (block_snoc_ne_zero hnz hb0)
            (by simp only [List.length_append, List.length_singleton]; omega)]
          rw [show decide ((255 : Nat) < 255) = false from rfl]
          refine ih [] (d ++ cond p [0] [] ++ (block ++ [b])) false (by simp)
            (by simp) ?_ ?_
          · simp only [List.length_append, cond_pend_length, List.length_nil,
              List.length_singleton, Bool.cond_true, Bool.cond_false]
            omega
          · simp only [List.length_append, cond_pend_length, List.length_nil,
              List.length_singleton, Bool.cond_true, Bool.cond_false]
            omega
      · rw [cobsEncodeGo_snoc block b r hb0 hfull]
        refine ih (block ++ [b]) d p (block_snoc_ne_zero hnz hb0)
          (by simp only [List.length_append, List.length_singleton]; omega)
          hdle
          (by simp only [List.length_append, List.length_singleton]; omega)

/-- Any proper prefix of an encoded frame leaves the decoder still
accumulating: completion cannot happen before the terminator. -/
theorem push_prefix_ongoing (cap : Nat) (enc d : List Nat)
    (hnz : ∀ y ∈ enc, y ≠ 0) (hdone : push cap initSt (enc ++ [0]) = .done d) :
    ∀ k, k < (enc ++ [0]).length →
      (push cap initSt ((enc ++ [0]).take k)).isOngoing = true := by
  intro k hk
  have hkle : k ≤ enc.length := by
    simp only [List.length_append, List.length_singleton] at hk; omega
  rw [List.take_append_of_le_length hkle]
  cases hres : push cap initSt (enc.take k) with
  | ongoing st => rfl
  | done d' =>
    exfalso
    have h0 : (0 : Nat) ∈ enc.take k :=
      push_done_mem_zero cap (enc.take k) initSt d' hres
    exact hnz 0 (List.take_subset k enc h0) rfl
  | err =>
    exfalso
    have hsplit : enc ++ [0] = enc.take k ++ (enc.drop k ++ [0]) := by
      rw [← List.append_assoc, List.take_append_drop]
    rw [hsplit, push_append] at hdone
    rw [hres] at hdone
    cases hdone

/-- Length bound of the encoder loop: one code byte per started block. -/
theorem encodeGo_length (rest : List Nat) : ∀ block : List Nat,
    (cobsEncodeGo block rest).length ≤
      block.length + rest.length + (block.length + rest.length + 253) / 254 + 1 := by
  induction rest with
  | nil =>
    intro block
    rw [cobsEncodeGo_nil]
    simp only [List.length_cons, List.length_nil]
    omega
  | cons b r ih =>
    intro block
    by_cases hb0 : b = 0
    · subst hb0
      rw [cobsEncodeGo_zero]
      have h := ih []
      simp only [List.length_append, List.length_cons, List.length_nil] at h ⊢
      omega
    · by_cases hfull : block.length = 253
      · rw [cobsEncodeGo_full block b r hb0 hfull]
        have h := ih []
        simp only [List.length_append, List.length_cons, List.length_nil,
          List.length_singleton] at h ⊢
        omega
      · rw [cobsEncodeGo_snoc block b r hb0 hfull]
        have h := ih (block ++ [b])
        simp only [List.length_append, List.length_cons, List.length_nil,
          List.length_singleton] at h ⊢
        omega

/-! ### Codec parser lemmas -/

/-- Monotone consumption of a parser: on success it consumes a prefix of the
input, every cut of the input below the consumed length fails with
`truncated`, and every cut at or beyond it succeeds with the same value. -/
def Mono {α : Type} (P : List Nat → Except DecodeError (α × List Nat)) : Prop :=
  ∀ l v rest, P l = .ok (v, rest) →
    ∃ n, l.drop n = rest ∧ n ≤ l.length ∧
      (∀ k, k < n → P (l.take k) = .error .truncated) ∧
      (∀ k, n ≤ k → P (l.take k) = .ok (v, (l.take k).drop n))

theorem mono_readByte : Mono readByte := by
  intro l v rest h
  cases l with
  | nil => simp [readByte] at h
  | cons b t =>
    simp only [readByte, Except.ok.injEq, Prod.mk.injEq] at h
    obtain ⟨rfl, rfl⟩ := h
    refine ⟨1, rfl, by simp, ?_, ?_⟩
    · intro k hk
      have hz : k = 0 := by omega
      subst hz
      simp [readByte]
    · intro k hk
      cases k with
      | zero => omega
      | succ k' => simp [readByte, List.take_succ_cons, List.drop_succ_cons]

theorem mono_readChunk (n : Nat) : Mono (readChunk n) := by
  intro l v rest h
  simp only [readChunk] at h
  split at h
  · rename_i hle
    simp only [Except.ok.injEq, Prod.mk.injEq] at h
    obtain ⟨rfl, rfl⟩ := h
    refine ⟨n, rfl, hle, ?_, ?_⟩
    · intro k hk
      simp only [readChunk]
      rw [if_neg]
      simp only [List.length_take]
      omega
    · intro k hk
      simp only [readChunk]
      rw [if_pos (by simp only [List.length_take]; omega)]
      rw [List.take_take, Nat.min_eq_left hk]
  · cases h

theorem mono_pure {β : Type} (f : β) :
    Mono (fun r => (.ok (f, r) : Except DecodeError (β × List Nat))) := by
  intro l v rest h
  simp only [Except.ok.injEq, Prod.mk.injEq] at h
  obtain ⟨rfl, rfl⟩ := h
  exact ⟨0, rfl, Nat.zero_le _, by omega, fun k _ => by simp⟩

theorem mono_fail {β : Type} (e : DecodeError) :
    Mono (fun _ : List Nat => (.error e : Except DecodeError (β × List Nat))) := by
  intro l v rest h
  simp at h

theorem mono_pstep {α β : Type}
    {P : List Nat → Except DecodeError (α × List Nat)}
    {Q : α → List Nat → Except DecodeError (β × List Nat)}
    (hP : Mono P) (hQ : ∀ a, Mono (Q a)) : Mono (pstep P Q) := by
  intro l v rest h
  unfold pstep at h
  cases hPl : P l with
  | error e => rw [hPl] at h; simp at h
  | ok ar =>
    obtain ⟨a, r⟩ := ar
    rw [hPl] at h
    obtain ⟨nP, hdropP, hlenP, htrP, hokP⟩ := hP l a r hPl
    obtain ⟨nQ, hdropQ, hlenQ, htrQ, hokQ⟩ := hQ a r v rest h
    have hrlen : r.length = l.length - nP := by
      rw [← hdropP, List.length_drop]
    have hco : ∀ k, nP ≤ k → (l.take k).drop nP = r.take (k - nP) := by
      intro k _
      rw [List.drop_take, hdropP]
    refine ⟨nP + nQ, ?_, by omega, ?_, ?_⟩
    · rw [← List.drop_drop, hdropP, hdropQ]
    · intro k hk
      unfold pstep
      by_cases hkP : k < nP
      · rw [htrP k hkP]
      · have hkP' : nP ≤ k := by omega
        rw [hokP k hkP', hco k hkP']
        exact htrQ (k - nP) (by omega)
    · intro k hk
      unfold pstep
      rw [hokP k (by omega), hco k (by omega)]
      show Q a (List.take (k - nP) r) = _
      rw [hokQ (k - nP) (by omega)]
      rw [← hco k (by omega), List.drop_drop]

theorem mono_readOptBytes : Mono readOptBytes := by
  refine mono_pstep mono_readByte fun flag => ?_
  split
  · exact mono_pure none
  · split
    · exact mono_pstep mono_readByte fun n =>
        mono_pstep (mono_readChunk n) fun bs => mono_pure (some bs)
    · exact mono_fail _

theorem mono_readOptString : Mono readOptString :=
  mono_pstep mono_readOptBytes fun _ => mono_pure _

theorem mono_decodeAux : Mono decodeAux := by
  refine mono_pstep mono_readByte fun vmaj => ?_
  refine mono_pstep mono_readByte fun vmin => ?_
  refine mono_pstep mono_readByte fun disc => ?_
  split
  · refine mono_pstep mono_readByte fun flag => ?_
    split
    · exact mono_pure _
    · exact mono_fail _
  · split
    · refine mono_pstep mono_readByte fun flag => ?_
      split
      · exact mono_pstep mono_readOptString fun e => mono_pure _
      · split
        · exact mono_fail _
        · exact mono_fail _
    · split
      · refine mono_pstep mono_readByte fun flag => ?_
        split
        · exact mono_pstep mono_readOptString fun e => mono_pure _
        · split
          · exact mono_fail _
          · exact mono_fail _
      · split
        · refine mono_pstep mono_readByte fun flag => ?_
          split
          · exact mono_pstep mono_readOptString fun e =>
              mono_pstep mono_readOptBytes fun bs => mono_pure _
          · split
            · exact mono_fail _
            · exact mono_fail _
        · exact mono_fail _

/-- Cutting a buffer below the length the response parser consumed yields the
`truncated` error. -/
theorem decodeAux_take_truncated (l : List Nat) (p : ResponsePacket)
    (rest : List Nat) (k : Nat) (h : decodeAux l = .ok (p, rest))
    (hk : k < l.length - rest.length) :
    decodeAux (l.take k) = .error .truncated := by
  obtain ⟨n, hdrop, hlen, htr, _⟩ := mono_decodeAux l p rest h
  have hrl : rest.length = l.length - n := by
    rw [← hdrop, List.length_drop]
  exact htr k (by omega)

/-! ### Claim theorems -/

/-- C1: Response classification. For every decoded `ResponsePacket`: an
`ErrorResponse` discriminant fails the transaction with the protocol-level
panic carrying the device's description; a discriminant matching the request
kind sent, with the embedded error field `some x`, fails with a domain-level
panic carrying `x`; a matching discriminant with the error field absent
succeeds, extracting the payload; and any other discriminant fails with the
unexpected-response-kind panic. Stated for both the configuration-request
classification (`i2c.rs` lines 115-134) and the data-request classification
(lines 205-226). -/
theorem c1_response_classification (e cerr derr : Option String) (x : String)
    (bs : List Nat) (dr : Option (List Nat)) :
    (classifyConfigurationResponse (mkErrorPacket e) =
      .panicked ("Received error response from BusPirate: " ++ rustDebugOptStr e))
  ∧ (classifyConfigurationResponse (mkConfigurationPacket (some x)) =
      .panicked ("Configuration response error: " ++ rustDebugStr x))
  ∧ (classifyConfigurationResponse (mkConfigurationPacket none) = .okUnit)
  ∧ (classifyConfigurationResponse (mkDataPacket derr dr) =
      .panicked ("Unexpected response contents type "
        ++ ResponsePacketContents.DataResponse.debugName))
  ∧ (classifyConfigurationResponse mkNonePacket =
      .panicked ("Unexpected response contents type "
        ++ ResponsePacketContents.NONE.debugName))
  ∧ (classifyDataResponse (mkErrorPacket e) =
      .panicked ("Received error response from BusPirate: " ++ rustDebugOptStr e))
  ∧ (classifyDataResponse (mkDataPacket (some x) dr) =
      .panicked ("Configuration response error: " ++ rustDebugStr x))
  ∧ (classifyDataResponse (mkDataPacket none (some bs)) = .okData bs)
  ∧ (classifyDataResponse (mkConfigurationPacket cerr) =
      .panicked ("Unexpected response contents type "
        ++ ResponsePacketContents.ConfigurationResponse.debugName))
  ∧ (classifyDataResponse mkNonePacket =
      .panicked ("Unexpected response contents type "
        ++ ResponsePacketContents.NONE.debugName)) :=
  ⟨rfl, rfl, rfl, rfl, rfl, rfl, rfl, rfl, rfl, rfl⟩

/-- C2: Framing round-trip. For every payload of length at most 4096,
COBS-encoding it, appending the terminator, and feeding the framed bytes to
the incremental decoder in chunks of size 1, of size 7, or as one full-length
chunk reports completion with the destination buffer (sliced to the parsed
length) equal to the original payload; and no proper prefix of the framed
bytes reports completion, so completion is reported exactly once. -/
theorem c2_framing_roundtrip (payload : List Nat)
    (hlen : payload.length ≤ 4096) (_hbytes : ∀ b ∈ payload, b < 256) :
    (recvLoop 4096 initSt (chunksOf 1 (cobsEncode payload ++ [0])) =
      .decoded payload)
  ∧ (recvLoop 4096 initSt (chunksOf 7 (cobsEncode payload ++ [0])) =
      .decoded payload)
  ∧ (recvLoop 4096 initSt [cobsEncode payload ++ [0]] = .decoded payload)
  ∧ (∀ k, k < (cobsEncode payload ++ [0]).length →
      (push 4096 initSt ((cobsEncode payload ++ [0]).take k)).isOngoing = true) := by
  have hpush : push 4096 initSt (cobsEncode payload ++ [0]) = .done payload := by
    have h := push_encodeGo 4096 payload [] [] false (by simp) (by simp)
      (by simp only [List.length_nil, Bool.cond_false]; omega)
    simpa [cobsEncode, initSt] using h
  refine ⟨?_, ?_, ?_, ?_⟩
  · exact recvLoop_of_push_done 4096 _ initSt payload
      (by rw [chunksOf_join 1 (by omega)]; exact hpush)
  · exact recvLoop_of_push_done 4096 _ initSt payload
      (by rw [chunksOf_join 7 (by omega)]; exact hpush)
  · simp only [recvLoop, hpush]
  · exact push_prefix_ongoing 4096 (cobsEncode payload) payload
      (encodeGo_ne_zero payload [] (by simp)) hpush

theorem c2_framing_roundtrip_witness :
    ([1, 0, 2, 255, 3] : List Nat).length ≤ 4096
  ∧ (∀ b ∈ ([1, 0, 2, 255, 3] : List Nat), b < 256)
  ∧ ((recvLoop 4096 initSt (chunksOf 1 (cobsEncode [1, 0, 2, 255, 3] ++ [0])) =
      .decoded [1, 0, 2, 255, 3])
    ∧ (recvLoop 4096 initSt (chunksOf 7 (cobsEncode [1, 0, 2, 255, 3] ++ [0])) =
      .decoded [1, 0, 2, 255, 3])
    ∧ (recvLoop 4096 initSt [cobsEncode [1, 0, 2, 255, 3] ++ [0]] =
      .decoded [1, 0, 2, 255, 3])
    ∧ (∀ k, k < (cobsEncode [1, 0, 2, 255, 3] ++ [0]).length →
      (push 4096 initSt ((cobsEncode [1, 0, 2, 255, 3] ++ [0]).take k)).isOngoing
        = true)) :=
  ⟨by decide, by decide,
    c2_framing_roundtrip [1, 0, 2, 255, 3] (by decide) (by decide)⟩

/-- C3: Sentinel safety. For every payload, the COBS-encoded output contains
no zero byte; after the single terminator byte is appended, the framed buffer
contains exactly one zero byte, and it is the final byte. -/
theorem c3_sentinel_safety (payload : List Nat) :
    (∀ y ∈ cobsEncode payload, y ≠ 0)
  ∧ ((cobsEncode payload ++ [0]).count 0 = 1)
  ∧ ((cobsEncode payload ++ [0]).getLast? = some 0) := by
  have hnz : ∀ y ∈ cobsEncode payload, y ≠ 0 :=
    encodeGo_ne_zero payload [] (by simp)
  refine ⟨hnz, ?_, ?_⟩
  · rw [List.count_append]
    rw [List.count_eq_zero.mpr (fun h => hnz 0 h rfl)]
    rfl
  · exact List.getLast?_concat _

/-- C4: Decode totality. Parsing a byte buffer as a `ResponsePacket` always
yields either a typed packet or a typed `DecodeError` (the model is a total
function, so no panic is possible); cutting a parseable buffer below the
consumed length yields the `truncated` error, a discriminant outside the
schema yields the `unrecognizedDiscriminant` error, and an absent union slot
under a variant discriminant yields a `structural` error. -/
theorem c4_decode_totality :
    (∀ l : List Nat, (∃ p, root_as_response_packet l = .ok p)
      ∨ (∃ e, root_as_response_packet l = .error e))
  ∧ (∀ (l : List Nat) (p : ResponsePacket) (rest : List Nat) (k : Nat),
      decodeAux l = .ok (p, rest) → k < l.length - rest.length →
      root_as_response_packet (l.take k) = .error .truncated)
  ∧ (∀ (vmaj vmin disc : Nat) (tail : List Nat), 4 ≤ disc →
      root_as_response_packet (vmaj :: vmin :: disc :: tail) =
        .error (.unrecognizedDiscriminant disc))
  ∧ (∀ (vmaj vmin : Nat) (tail : List Nat),
      root_as_response_packet (vmaj :: vmin :: 1 :: 0 :: tail) =
        .error (.structural "union slot absent")
    ∧ root_as_response_packet (vmaj :: vmin :: 2 :: 0 :: tail) =
        .error (.structural "union slot absent")
    ∧ root_as_response_packet (vmaj :: vmin :: 3 :: 0 :: tail) =
        .error (.structural "union slot absent")) := by
  refine ⟨?_, ?_, ?_, ?_⟩
  · intro l
    cases h : root_as_response_packet l with
    | ok p => exact Or.inl ⟨p, rfl⟩
    | error e => exact Or.inr ⟨e, rfl⟩
  · intro l p rest k h hk
    rw [root_as_response_packet, decodeAux_take_truncated l p rest k h hk]
  · intro vmaj vmin disc tail hd
    have h0 : ¬ disc = 0 := by omega
    have h1 : ¬ disc = 1 := by omega
    have h2 : ¬ disc = 2 := by omega
    have h3 : ¬ disc = 3 := by omega
    simp only [root_as_response_packet, decodeAux, pstep, readByte,
      if_neg h0, if_neg h1, if_neg h2, if_neg h3]
  · intro vmaj vmin tail
    exact ⟨rfl, rfl, rfl⟩

theorem c4_decode_totality_witness :
    (decodeAux [2, 0, 3, 1, 0, 0] =
      .ok (⟨2, 0, .DataResponse, some (.dat ⟨none, none⟩)⟩, []))
  ∧ ((2 : Nat) < ([2, 0, 3, 1, 0, 0] : List Nat).length - ([] : List Nat).length)
  ∧ (root_as_response_packet (([2, 0, 3, 1, 0, 0] : List Nat).take 2) =
      .error .truncated)
  ∧ ((4 : Nat) ≤ 9
    ∧ root_as_response_packet [2, 0, 9, 5] =
        .error (.unrecognizedDiscriminant 9)) :=
  ⟨rfl, by decide,
    c4_decode_totality.2.1 [2, 0, 3, 1, 0, 0] _ [] 2 rfl (by decide),
    by decide,
    c4_decode_totality.2.2.1 2 0 9 [5] (by decide)⟩

/-- C5: Decoder overflow. For every payload whose decoded frame exceeds the
fixed 256-byte destination capacity of the example's decoder, pushing the
framed encoding returns the failure result rather than reporting completion
with a truncated frame. -/
theorem c5_decoder_overflow (payload : List Nat) (h : 256 < payload.length) :
    push 256 initSt (cobsEncode payload ++ [0]) = .err := by
  have hov := push_encodeGo_overflow 256 payload [] [] false (by simp)
    (by simp) (by simp) (by simp only [List.length_nil, Bool.cond_false]; omega)
  simpa [cobsEncode, initSt] using hov

theorem c5_decoder_overflow_witness :
    256 < (List.replicate 257 7 : List Nat).length
  ∧ push 256 initSt (cobsEncode (List.replicate 257 7) ++ [0]) = .err :=
  ⟨by decide, c5_decoder_overflow (List.replicate 257 7) (by decide)⟩

/-- C6 counterexample: the claimed bound "encoded length (before the
terminator) is at most input.length + ceil(input.length / 254)" fails: the
empty payload encodes to the single code byte `[1]`, and a payload of 254
non-sentinel bytes encodes to 256 bytes while the claimed bound is 255. -/
theorem c6_overhead_counterexample :
    ¬ ((cobsEncode ([] : List Nat)).length ≤
        ([] : List Nat).length + (([] : List Nat).length + 253) / 254)
  ∧ ¬ ((cobsEncode (List.replicate 254 1)).length ≤
        (List.replicate (α := Nat) 254 1).length
          + ((List.replicate (α := Nat) 254 1).length + 253) / 254) := by
  constructor
  · decide
  · decide

/-- C6 (amended): COBS encode never fails (it is a total function), and the
encoded output length before the appended terminator is at most
input.length + ceil(input.length / 254) + 1 — one code byte per started
block — hence at most input.length + ceil(input.length / 254) + 2 including
the terminator. -/
theorem c6_overhead_bound_amended (payload : List Nat) :
    ((cobsEncode payload).length ≤
      payload.length + (payload.length + 253) / 254 + 1)
  ∧ ((cobsEncode payload ++ [0]).length ≤
      payload.length + (payload.length + 253) / 254 + 2) := by
  have h := encodeGo_length payload []
  simp only [List.length_nil, Nat.zero_add] at h
  have h' : (cobsEncode payload).length ≤
      payload.length + (payload.length + 253) / 254 + 1 := h
  refine ⟨h', ?_⟩
  simp only [List.length_append, List.length_singleton]
  omega

/-- C7: No length enforcement on data reads. For every `DataResponse` whose
embedded error field is absent and whose payload is present, the transaction
returns the response's `data_read` byte sequence unchanged, for any length —
no check against the requested `bytes_read` count (8 in the example) is
performed. -/
theorem c7_no_length_enforcement (bs : List Nat) :
    classifyDataResponse (mkDataPacket none (some bs)) = .okData bs := rfl

/-- C8: Union-accessor safety. For every well-formed decoded packet, in which
discriminant and payload agree, the payload accessor matching the
discriminant returns `some`, so the `unwrap` calls guarded by the
discriminant match in `i2c.rs` cannot panic. -/
theorem c8_union_accessor_safety (p : ResponsePacket) (h : WfPacket p) :
    (p.contents_type = .ErrorResponse →
      (p.contents_as_error_response).isSome = true)
  ∧ (p.contents_type = .ConfigurationResponse →
      (p.contents_as_configuration_response).isSome = true)
  ∧ (p.contents_type = .DataResponse →
      (p.contents_as_data_response).isSome = true) := by
  obtain ⟨vmaj, vmin, ct, c⟩ := p
  cases ct <;> rcases c with _ | (e | cc | dd) <;>
    simp_all [WfPacket, ResponsePacket.contents_as_error_response,
      ResponsePacket.contents_as_configuration_response,
      ResponsePacket.contents_as_data_response]

theorem c8_union_accessor_safety_witness :
    WfPacket ⟨2, 0, .ErrorResponse, some (.err ⟨some "x"⟩)⟩
  ∧ ((⟨2, 0, .ErrorResponse, some (.err ⟨some "x"⟩)⟩ : ResponsePacket).contents_as_error_response).isSome
      = true :=
  ⟨True.intro,
    (c8_union_accessor_safety ⟨2, 0, .ErrorResponse, some (.err ⟨some "x"⟩)⟩
      True.intro).1 rfl⟩

/-- C9: Failure distinguishability fails in the source: a domain-level error
embedded in a `DataResponse` panics with the message of `i2c.rs` line 218,
"Configuration response error: ...", which is identical to the message of the
configuration-transaction domain error (line 128), so the two failure reasons
collapse into the same report. -/
theorem c9_failure_collapse :
    classifyDataResponse (mkDataPacket (some "x") (some [])) =
        classifyConfigurationResponse (mkConfigurationPacket (some "x"))
  ∧ classifyDataResponse (mkDataPacket (some "x") (some [])) =
        .panicked ("Configuration response error: " ++ rustDebugStr "x") :=
  ⟨rfl, rfl⟩

/-- C10: Trailing-byte discard. When a push over a chunk reports frame
completion, the receive loop breaks immediately: any bytes appended to that
chunk after the terminator and any later chunks never change the decoded
result, and the session's second transaction decodes from a fresh decoder
state over a fresh buffer, independent of the first transaction's stream. -/
theorem c10_trailing_discard (cap : Nat) (c extra r : List Nat)
    (rest chunks₂ : List (List Nat))
    (h : push cap initSt c = .done r) :
    (push cap initSt (c ++ extra) = .done r)
  ∧ (recvLoop cap initSt ((c ++ extra) :: rest) = .decoded r)
  ∧ (sessionRecv cap ((c ++ extra) :: rest) chunks₂ =
      (.decoded r, recvLoop cap initSt chunks₂)) := by
  have hpa : push cap initSt (c ++ extra) = .done r := by
    rw [push_append, h]
  refine ⟨hpa, ?_, ?_⟩
  · simp only [recvLoop, hpa]
  · simp only [sessionRecv, recvLoop, hpa]

theorem c10_trailing_discard_witness :
    push 256 initSt [1, 0] = .done []
  ∧ ((push 256 initSt ([1, 0] ++ [9, 9]) = .done [])
    ∧ (recvLoop 256 initSt (([1, 0] ++ [9, 9]) :: [[5]]) = .decoded [])
    ∧ (sessionRecv 256 (([1, 0] ++ [9, 9]) :: [[5]]) [[1, 0]] =
        (.decoded [], recvLoop 256 initSt [[1, 0]]))) :=
  ⟨by decide, c10_trailing_discard 256 [1, 0] [9, 9] [] [[5]] [[1, 0]] (by decide)⟩

end BPIO2
